import Mathlib

/-!
Verification of secure-git, the suspicious co-author detector (src/main.go).

A shallow embedding of the analysis core of `main.go`:

* the pattern table `suspiciousPatterns` and the part of Go's `regexp`
  semantics it relies on (leftmost-first matching, `(?i)` case folding);
* `analyzeRepository`, with the three `git` invocations as oracles;
* `analyzeRepositories`, with the order in which goroutines append as a schedule;
* `findGitRepositories`, with `filepath.Walk` over a finite directory tree.

Conventions. Text is a list of runes (`List Char`), that is, a Go string
holding valid UTF-8. Go `int` has 64 bits. The library functions used by
`main.go` (`regexp`, `strings`, `fmt.Sscanf`, `filepath.Walk`) are embedded
from their documented behaviour, restricted to the arguments `main.go` passes.
-/

namespace SecureGit

/-- Go `string`, as the sequence of its runes. -/
abbrev GoString := List Char

/-! ## Go `regexp`, as far as the pattern table uses it -/

/-- Code point of an ASCII upper-case letter. -/
def isUpperNat (n : Nat) : Bool := decide (65 ≤ n) && decide (n ≤ 90)

/-- Code point of an ASCII lower-case letter. -/
def isLowerNat (n : Nat) : Bool := decide (97 ≤ n) && decide (n ≤ 122)

/-- The orbit of `unicode.SimpleFold` starting at an ASCII code point `c`,
without `c` itself: the other case of a letter, and for `k` and `s` the
Kelvin sign U+212A and the long s U+017F. Pattern text is ASCII. -/
def simpleFoldOrbit (c : Nat) : List Nat :=
  if isUpperNat c then
    (c + 32) :: (if c = 75 then [0x212A] else if c = 83 then [0x17F] else [])
  else if isLowerNat c then
    (c - 32) :: (if c = 107 then [0x212A] else if c = 115 then [0x17F] else [])
  else []

/-- Go `MatchRunePos` for a single rune with the fold flag: `r == r0`, or `r` is
on the `SimpleFold` orbit of `r0`. -/
def foldEq (r0 r : Char) : Bool :=
  decide (r.toNat = r0.toNat) || (simpleFoldOrbit r0.toNat).contains r.toNat

/-- Membership in a bracket class compiled under `(?i)`: the listed runes
with their folded variants, negated for `[^...]`. -/
def classMatch (neg : Bool) (items : List Char) (r : Char) : Bool :=
  xor neg (items.any (fun r0 => foldEq r0 r))

/-- The regular expressions of the pattern table: literals, bracket classes,
greedy stars of a class, concatenation and alternation, all under `(?i)`. -/
inductive Regex where
  | eps : Regex
  | chr (c : Char) : Regex
  | cls (neg : Bool) (items : List Char) : Regex
  | star (neg : Bool) (items : List Char) : Regex
  | seq (a b : Regex) : Regex
  | alt (a b : Regex) : Regex
  deriving Repr, DecidableEq

/-- Greedy `x*` for a class `x` from the start of `s`: every split
`(consumed, rest)`, longest first. -/
def starRun (p : Char → Bool) : GoString → List (GoString × GoString)
  | [] => [([], [])]
  | a :: t =>
    if p a then (starRun p t).map (fun mr => (a :: mr.1, mr.2)) ++ [([], a :: t)]
    else [([], a :: t)]

/-- All ways `r` matches a prefix of `s`, as `(matched, rest)`, in the order a
backtracking engine tries them (the first one is the leftmost-first match). -/
def Regex.run : Regex → GoString → List (GoString × GoString)
  | .eps, s => [([], s)]
  | .chr c, s =>
    match s with
    | a :: t => if foldEq c a then [([a], t)] else []
    | [] => []
  | .cls neg items, s =>
    match s with
    | a :: t => if classMatch neg items a then [([a], t)] else []
    | [] => []
  | .star neg items, s => starRun (classMatch neg items) s
  | .seq a b, s =>
    (a.run s).flatMap (fun m1 => (b.run m1.2).map (fun m2 => (m1.1 ++ m2.1, m2.2)))
  | .alt a b, s => a.run s ++ b.run s

/-- The leftmost-first match of `r` in `s`: the first start position with a
match, and there the first match in backtracking order. -/
def Regex.find (r : Regex) : GoString → Option GoString
  | [] => (r.run []).head?.map Prod.fst
  | a :: t =>
    match r.run (a :: t) with
    | m :: _ => some m.1
    | [] => Regex.find r t

/-- Go `(*Regexp).MatchString`: whether `s` contains a match of `r`. -/
def MatchString (r : Regex) (s : GoString) : Bool := (r.find s).isSome

/-- Go `(*Regexp).FindString`: the text of the leftmost match, `""` when there is none. -/
def FindString (r : Regex) (s : GoString) : GoString := (r.find s).getD []

/-- Concatenation of a list of expressions. -/
def Regex.cat : List Regex → Regex
  | [] => .eps
  | [r] => r
  | r :: rs => .seq r (Regex.cat rs)

/-- A literal string. -/
def lit (s : String) : Regex := Regex.cat (s.toList.map Regex.chr)

/-- Alternation of a non-empty list of expressions, leftmost alternative first. -/
def Regex.anyOf : List Regex → Regex
  | [] => .cls false []
  | [r] => r
  | r :: rs => .alt r (Regex.anyOf rs)

/-- Perl class `\s`: `[\t\n\f\r ]`. -/
def perlSpace : List Char := ['\t', '\n', Char.ofNat 12, '\r', ' ']

/-- The expression `\s*`. -/
def wsStar : Regex := .star false perlSpace

/-- The expression `[-\s]*`. -/
def dashWsStar : Regex := .star false ('-' :: perlSpace)

/-- The common head `Co-authored-by:\s*` of every pattern. -/
def trailerHead : List Regex := [lit "Co-authored-by:", wsStar]

/-- The pattern table, main.go lines 40-54. -/
def suspiciousPatterns : List Regex := [
  Regex.cat (trailerHead ++ [.cls false ['Q', 'q'], lit "wen", dashWsStar, .cls false ['C', 'c'],
    lit "oder", wsStar, lit "<", .star true ['>'], lit "@alibabacloud", lit ".", lit "com>"]),
  Regex.cat (trailerHead ++ [.cls false ['Q', 'q'], lit "wen", dashWsStar, .cls false ['C', 'c'],
    lit "oder"]),
  Regex.cat (trailerHead ++ [.cls false ['A', 'a'], .cls false ['I', 'i'], wsStar,
    .cls false ['A', 'a'], lit "ssistant"]),
  Regex.cat (trailerHead ++ [.cls false ['C', 'c'], lit "hat", .cls false ['G', 'g'],
    .cls false ['P', 'p'], .cls false ['T', 't']]),
  Regex.cat (trailerHead ++ [.cls false ['G', 'g'], lit "ithub", dashWsStar,
    .cls false ['C', 'c'], lit "opilot"]),
  Regex.cat (trailerHead ++ [.cls false ['C', 'c'], lit "ode", .cls false ['L', 'l'], lit "lama"]),
  Regex.cat (trailerHead ++ [.cls false ['C', 'c'], lit "laude"]),
  Regex.cat (trailerHead ++ [.cls false ['L', 'l'], lit "lama"]),
  Regex.cat (trailerHead ++ [.cls false ['M', 'm'], lit "istral"]),
  Regex.cat (trailerHead ++ [.cls false ['A', 'a'], lit "mazon", dashWsStar,
    .cls false ['Q', 'q']]),
  Regex.cat (trailerHead ++ [.cls false ['G', 'g'], lit "emini"]),
  Regex.cat (trailerHead ++ [.cls false ['A', 'a'], lit "ider"]),
  Regex.cat (trailerHead ++ [.star true ['<'], lit "<", .star true ['>'], lit "@",
    Regex.anyOf [lit "openai", lit "anthropic", lit "microsoft", lit "google",
      lit "alibabacloud", lit "amazon", lit "facebook", lit "meta"],
    lit "."])]

/-! ## `strings` and `fmt` helpers -/

/-- Go `unicode.IsSpace` on a code point. -/
def isSpaceNat (n : Nat) : Bool :=
  (decide (9 ≤ n) && decide (n ≤ 13)) || n == 32 || n == 0x85 || n == 0xA0 || n == 0x1680 ||
  (decide (0x2000 ≤ n) && decide (n ≤ 0x200A)) || n == 0x2028 || n == 0x2029 || n == 0x202F ||
  n == 0x205F || n == 0x3000

/-- Go `unicode.IsSpace`. -/
def isSpace (c : Char) : Bool := isSpaceNat c.toNat

/-- Go `strings.TrimSpace`: leading and trailing white space removed. -/
def TrimSpace (s : GoString) : GoString :=
  ((s.dropWhile isSpace).reverse.dropWhile isSpace).reverse

/-- Pieces of `s` between occurrences of the newline, for `strings.Split(s, "\n")`:
the piece being read and the pieces after it. -/
def splitLinesAux : GoString → GoString × List GoString
  | [] => ([], [])
  | c :: t =>
    let r := splitLinesAux t
    if c = '\n' then ([], r.1 :: r.2) else (c :: r.1, r.2)

/-- Go `strings.Split(s, "\n")`; the empty text gives one empty line. -/
def splitLines (s : GoString) : List GoString :=
  let r := splitLinesAux s
  r.1 :: r.2

/-- Decimal digit. -/
def isDigit (c : Char) : Bool := decide (48 ≤ c.toNat) && decide (c.toNat ≤ 57)

/-- Value of a run of decimal digits. -/
def digitsValue (ds : GoString) : Nat := ds.foldl (fun acc d => acc * 10 + (d.toNat - 48)) 0

/-- The scanner's `SkipSpace` as `Sscanf` runs it (a newline is not a space
there): `none` is the "unexpected newline" error. -/
def SkipSpace : GoString → Option GoString
  | [] => some []
  | c :: t => if c = '\n' then none else if isSpace c then SkipSpace t else some (c :: t)

/-- Limit on the number of runes one scan reads (`hugeWid`, the initial
`limit` of the scan state). -/
def hugeWid : Nat := 2 ^ 30

/-- The scanner's `scanInt` for the verb `%d` into an `int` of 64 bits: skip
space, take an optional sign and then at least one decimal digit, and convert
the token with `strconv.ParseInt(tok, 10, 64)`. `none` is a scan error (end of
input, no digit, value out of range); text after the digits is left unread. -/
def scanInt (input : GoString) : Option Int :=
  match SkipSpace input with
  | none => none
  | some [] => none
  | some (c :: t) =>
    let rest := if c = '+' ∨ c = '-' then t else c :: t
    let digits := rest.takeWhile isDigit
    if digits = [] then none
    else
      let v : Int := if c = '-' then -(digitsValue digits : Int) else (digitsValue digits : Int)
      if -(2 ^ 63 : Int) ≤ v ∧ v ≤ 2 ^ 63 - 1 then some v else none

/-- The call `fmt.Sscanf(str, "%d", &n)` with its returned error dropped, as
main.go line 295 makes it: of the first `hugeWid` runes, space is skipped and
then one integer is scanned; on a scan error `n` keeps the value it had. -/
def Sscanf_d (str : GoString) (n : Int) : Int :=
  match SkipSpace (str.take hugeWid) with
  | none => n
  | some s =>
    match scanInt s with
    | some v => v
    | none => n

/-! ## The analyzer -/

/-- RepositoryResult holds the analysis results for a single repository.
The counters are Go `int`; a count of matches cannot reach `2^63`, so they are
unbounded integers here. -/
structure RepositoryResult where
  Path : GoString
  TotalCommits : Int
  SuspiciousCommits : Int
  SuspiciousAuthors : List GoString
  deriving DecidableEq

/-- The three `git` invocations of `analyzeRepository`, per repository path:
the standard output of the command, or `none` when `cmd.Output()` returns an
error. -/
structure Git where
  /-- Output of `git -C path rev-list --count HEAD`. -/
  revListCount : GoString → Option GoString
  /-- Output of `git -C path log --oneline --format=fuller --all`. -/
  logAll : GoString → Option GoString
  /-- Output of `git -C path log --oneline --format=fuller`. -/
  logCurrent : GoString → Option GoString

/-- The two errors `analyzeRepository` returns. -/
inductive AnalysisError where
  | countingCommits
  | gettingCommitLogs
  deriving DecidableEq

/-- Loop state of the scan: the result being filled and the keys of `authorMap`
that are set to true. -/
structure ScanState where
  result : RepositoryResult
  authorMap : List GoString
  deriving DecidableEq

/-- Body of the inner loop (main.go lines 321-330) for one line and one pattern. -/
def scanPattern (line : GoString) (st : ScanState) (pattern : Regex) : ScanState :=
  if MatchString pattern line then
    let result := { st.result with SuspiciousCommits := st.result.SuspiciousCommits + 1 }
    let matches_ := FindString pattern line
    if matches_ ≠ [] ∧ ¬ (matches_ ∈ st.authorMap) then
      { result := { result with
                    SuspiciousAuthors := result.SuspiciousAuthors ++ [TrimSpace matches_] },
        authorMap := matches_ :: st.authorMap }
    else { st with result := result }
  else st

/-- Body of the outer loop (main.go lines 319-332): every pattern, in table
order, against one line. -/
def scanLine (patterns : List Regex) (st : ScanState) (line : GoString) : ScanState :=
  patterns.foldl (scanPattern line) st

/-- The scan of a commit log (main.go lines 313-334) starting from `result`. -/
def scanLog (patterns : List Regex) (result : RepositoryResult) (commitLog : GoString) :
    RepositoryResult :=
  ((splitLines commitLog).foldl (scanLine patterns) { result := result, authorMap := [] }).result

/-- The log retrieval of `analyzeRepository` (main.go lines 301-311): the log
of all refs, on failure the log of the current branch, `none` when both fail. -/
def commitLogOutput (git : Git) (repoPath : GoString) : Option GoString :=
  match git.logAll repoPath with
  | some output => some output
  | none => git.logCurrent repoPath

/-- analyzeRepository analyzes a single Git repository for suspicious
co-authors (main.go lines 279-335). Go returns the pair `(result, err)`. -/
def analyzeRepository (git : Git) (repoPath : GoString) :
    RepositoryResult × Option AnalysisError :=
  let result : RepositoryResult :=
    { Path := repoPath, TotalCommits := 0, SuspiciousCommits := 0, SuspiciousAuthors := [] }
  match git.revListCount repoPath with
  | none => (result, some .countingCommits)
  | some output =>
    let result := { result with TotalCommits := Sscanf_d (TrimSpace output) result.TotalCommits }
    if result.TotalCommits = 0 then (result, none)
    else
      match commitLogOutput git repoPath with
      | none => (result, some .gettingCommitLogs)
      | some output => (scanLog suspiciousPatterns result output, none)

/-! ## Definitions for the statements -/

/-- The matched substrings of a log, line by line in log order and pattern by
pattern in table order within a line: the leftmost match of every pattern that
matches the line. -/
def matchedTexts (patterns : List Regex) (lines : List GoString) : List GoString :=
  lines.flatMap (fun l => (patterns.filter (fun p => MatchString p l)).map (fun p => FindString p l))

/-- A sequence with every repeat after the first occurrence removed. -/
def firstSeen {α : Type} [DecidableEq α] : List α → List α
  | [] => []
  | x :: xs => x :: (firstSeen xs).filter (fun y => decide (y ≠ x))

/-- Every match of the expression is non-empty and starts with a rune that is
not white space (a sufficient syntactic check). -/
def headOk : Regex → Bool
  | .eps => false
  | .chr c => !isSpace c && (simpleFoldOrbit c.toNat).all (fun n => !isSpaceNat n)
  | .cls neg items =>
    !neg && items.all (fun c => !isSpace c && (simpleFoldOrbit c.toNat).all (fun n => !isSpaceNat n))
  | .star _ _ => false
  | .seq a _ => headOk a
  | .alt a b => headOk a && headOk b

/-- Every match of the expression is non-empty and ends with a rune that is
not white space (a sufficient syntactic check). -/
def lastOk : Regex → Bool
  | .eps => false
  | .chr c => !isSpace c && (simpleFoldOrbit c.toNat).all (fun n => !isSpaceNat n)
  | .cls neg items =>
    !neg && items.all (fun c => !isSpace c && (simpleFoldOrbit c.toNat).all (fun n => !isSpaceNat n))
  | .star _ _ => false
  | .seq _ b => lastOk b
  | .alt a b => lastOk a && lastOk b

/-- The loop body seen from a matched text `m`: count it, and record it when it
is not empty and not yet a key of the map. -/
def record (st : ScanState) (m : GoString) : ScanState :=
  let result := { st.result with SuspiciousCommits := st.result.SuspiciousCommits + 1 }
  if m ≠ [] ∧ ¬ (m ∈ st.authorMap) then
    { result := { result with
                  SuspiciousAuthors := result.SuspiciousAuthors ++ [TrimSpace m] },
      authorMap := m :: st.authorMap }
  else { st with result := result }

/-- The log of the scenario: the Claude trailer and the Copilot trailer. -/
def twoTrailers : GoString :=
  "Co-authored-by: Claude <noreply@anthropic.com>\nCo-authored-by: GitHub Copilot <copilot@github.com>".toList

/-- A `git` whose count output is `count` and whose log of all refs is `log`,
for every path. -/
def constGit (count log : GoString) : Git :=
  { revListCount := fun _ => some count, logAll := fun _ => some log, logCurrent := fun _ => none }

/-- ASCII letter. -/
def isAsciiLetter (c : Char) : Bool := isUpperNat c.toNat || isLowerNat c.toNat

/-- Code point of the lower-case form of an ASCII upper-case letter; other
code points unchanged. -/
def lowerNat (n : Nat) : Nat := if isUpperNat n then n + 32 else n

/-- One rune is the other with at most the case of an ASCII letter changed. -/
def CaseVariant (a b : Char) : Prop :=
  a = b ∨ (isAsciiLetter a = true ∧ isAsciiLetter b = true ∧ lowerNat a.toNat = lowerNat b.toNat)

/-- One line is the other with the case of any of its ASCII letters changed. -/
def CaseVariantLine (l l' : GoString) : Prop := List.Forall₂ CaseVariant l l'

/-- Two results of a run, related part by part. -/
def CaseVariantRun (x y : GoString × GoString) : Prop :=
  CaseVariantLine x.1 y.1 ∧ CaseVariantLine x.2 y.2

instance (a b : Char) : Decidable (CaseVariant a b) := by
  unfold CaseVariant; exact inferInstance

/-- The upper-case trailer of the case-folding scenario. -/
def qwenUpper : GoString := "Co-authored-by: QWEN-CODER <x@ALIBABACLOUD.com>".toList

/-- The lower-case trailer of the case-folding scenario. -/
def qwenLower : GoString := "co-authored-by: qwen-coder <x@alibabacloud.com>".toList

/-- The text is a non-empty string of decimal digits. -/
def isDecimalString (s : GoString) : Bool := !s.isEmpty && s.all isDigit

/-- The text begins with a decimal digit, optionally preceded by one sign. -/
def startsWithNumber : GoString → Bool
  | [] => false
  | [c] => isDigit c
  | c :: d :: _ => isDigit c || ((c == '+' || c == '-') && isDigit d)

/-- A `git` whose count output is `count` and whose two log commands fail. -/
def noLogGit (count : GoString) : Git :=
  { revListCount := fun _ => some count, logAll := fun _ => none, logCurrent := fun _ => none }

/-! ## The coordinator -/

/-- What one goroutine of `analyzeRepositories` does to the shared `results`
slice, under the lock: a failed analysis is logged and appends nothing. -/
def appendResult (git : Git) (results : List RepositoryResult) (repoPath : GoString) :
    List RepositoryResult :=
  match analyzeRepository git repoPath with
  | (_, some _) => results
  | (result, none) => results ++ [result]

/-- analyzeRepositories analyzes multiple repositories concurrently (main.go
lines 246-276). Goroutine `i` analyzes `repos[i]` and appends under the lock;
`wg.Wait()` returns after all of them. `completion` is the order, chosen by
the scheduler, in which the goroutines (by index) reach the append. -/
def analyzeRepositories (git : Git) (repos : List GoString) (completion : List Nat) :
    List RepositoryResult :=
  (completion.filterMap (fun i => repos[i]?)).foldl (appendResult git) []

/-- The result of a successful analysis of one path. -/
def successfulResult (git : Git) (repoPath : GoString) : Option RepositoryResult :=
  match analyzeRepository git repoPath with
  | (_, some _) => none
  | (result, none) => some result

/-- A `git` for which the path "/b" has no countable HEAD and every other
path has zero commits. -/
def oneFailingGit : Git :=
  { revListCount := fun p => if p = "/b".toList then none else some "0\n".toList,
    logAll := fun _ => none, logCurrent := fun _ => none }

/-! ## Repository discovery -/

/-- A cleaned file path, as the list of its components. -/
abbrev GoPath := List GoString

/-- Go `filepath.Join(path, name)` for a single component `name`. -/
def Join (path : GoPath) (name : GoString) : GoPath := path ++ [name]

/-- Go `filepath.Dir`. -/
def Dir (path : GoPath) : GoPath := path.dropLast

/-- Go `filepath.Base`, the name `os.Lstat` reports for the path. -/
def Base (path : GoPath) : GoString := path.getLast?.getD ".".toList

/-- What is found at a path: an entry that is not a directory, a path for
which `lstat` fails, or a directory with its entries by name (`readable`
false when the directory cannot be listed). -/
inductive Node where
  | file : Node
  | missing : Node
  | dir (readable : Bool) (entries : List (GoString × Node)) : Node

instance : Inhabited Node := ⟨Node.file⟩

/-- The `os.FileInfo` fields the callback reads. -/
structure FileInfo where
  Name : GoString
  IsDir : Bool

/-- The non-nil errors of a walk. -/
inductive WalkErr where
  | SkipDir
  | SkipAll
  | other
  deriving DecidableEq

/-- Outcome of a part of a walk: the paths the callback was called with, the
repository paths it appended, and the error returned. -/
structure WalkOut where
  visited : List GoPath
  repos : List GoPath
  err : Option WalkErr

/-- The metadata directory name. -/
def dotGit : GoString := ".git".toList

/-- The callback passed to `filepath.Walk` (main.go lines 201-223):
the repository paths it appends and the error it returns. `err` is whether
the walk reports an error for the path, `isValidGitRepo` is the validity
check. -/
def walkFn (isValidGitRepo : GoPath → Bool) (path : GoPath) (info : Option FileInfo)
    (err : Bool) : List GoPath × Option WalkErr :=
  if err then ([], none)
  else
    match info with
    | none => ([], none) -- not reached: the walk passes a nil info only with an error
    | some info =>
      if info.IsDir && info.Name == dotGit then
        let repoPath := Dir path
        (if isValidGitRepo repoPath then [repoPath] else [], some .SkipDir)
      else ([], none)

/-- Whether `lstat` reports a directory. -/
def Node.isDir : Node → Bool
  | .dir _ _ => true
  | _ => false

/-- Go `filepath.walk` on an entry whose `lstat` gave `name` and the node, and
the callback call for an entry whose `lstat` failed. -/
def walk (isValidGitRepo : GoPath → Bool) (path : GoPath) (name : GoString) : Node → WalkOut
  | .missing =>
    let r := walkFn isValidGitRepo path none true
    ⟨[path], r.1, r.2⟩
  | .file =>
    let r := walkFn isValidGitRepo path (some ⟨name, false⟩) false
    ⟨[path], r.1, r.2⟩
  | .dir readable entries =>
    let r := walkFn isValidGitRepo path (some ⟨name, true⟩) (!readable)
    if !readable || r.2.isSome then ⟨[path], r.1, r.2⟩
    else
      let out := walkEntries isValidGitRepo path entries
      ⟨path :: out.visited, r.1 ++ out.repos, out.err⟩
where
  /-- The loop of `filepath.walk` over the names of a directory. -/
  walkEntries (isValidGitRepo : GoPath → Bool) (path : GoPath) :
      List (GoString × Node) → WalkOut
  | [] => ⟨[], [], none⟩
  | (name, node) :: rest =>
    let out := walk isValidGitRepo (Join path name) name node
    let stop : Bool :=
      match node with
      | .missing => out.err.isSome && out.err != some .SkipDir
      | _ => out.err.isSome && (!node.isDir || out.err != some .SkipDir)
    if stop then out
    else
      let r := walkEntries isValidGitRepo path rest
      ⟨out.visited ++ r.visited, out.repos ++ r.repos, r.err⟩

/-- Go `filepath.Walk(root, fn)`: `SkipDir` and `SkipAll` from the root are
not errors. -/
def Walk (isValidGitRepo : GoPath → Bool) (root : GoPath) (node : Node) : WalkOut :=
  let out := walk isValidGitRepo root (Base root) node
  if out.err = some .SkipDir ∨ out.err = some .SkipAll then { out with err := none } else out

/-- findGitRepositories recursively finds all Git repositories in the given
directory (main.go lines 197-230); `node` is what the file system holds at
`rootDir`. -/
def findGitRepositories (isValidGitRepo : GoPath → Bool) (rootDir : GoPath) (node : Node) :
    Except WalkErr (List GoPath) :=
  let out := Walk isValidGitRepo rootDir node
  match out.err with
  | some err => .error err
  | none => .ok out.repos

/-- The node at a relative path below a node. -/
def Node.lookup : Node → List GoString → Option Node
  | n, [] => some n
  | .dir _ entries, name :: rel =>
    match entries.lookup name with
    | some child => child.lookup rel
    | none => none
  | _, _ :: _ => none

/-- Sibling names are distinct in every directory of the tree. -/
def Node.distinctNames : Node → Bool
  | .dir _ entries => decide (entries.map Prod.fst).Nodup && distinctEntries entries
  | _ => true
where
  /-- The same for every entry of a list. -/
  distinctEntries : List (GoString × Node) → Bool
  | [] => true
  | (_, node) :: rest => node.distinctNames && distinctEntries rest

/-- A sample tree: a project with a `.git` directory (holding `objects`), a
plain file, and a subdirectory with two nested projects, one whose `.git`
cannot be listed and one whose `.git` can, next to a name whose `lstat` fails. -/
def sampleTree : Node :=
  .dir true [
    (dotGit, .dir true [("objects".toList, .dir true [("ab".toList, .file)]),
                        ("HEAD".toList, .file)]),
    ("README".toList, .file),
    ("sub".toList, .dir true [("inner".toList, .dir true [(dotGit, .dir false [])]),
                               ("lib".toList, .dir true [(dotGit, .dir true []),
                                                         ("main.go".toList, .file)]),
                               ("gone".toList, .missing)])]

/-! ## The scan loop -/

theorem scanPattern_eq (line : GoString) (st : ScanState) (p : Regex) :
    scanPattern line st p = if MatchString p line then record st (FindString p line) else st := by
  unfold scanPattern record
  rfl

theorem scanLine_eq (ps : List Regex) (st : ScanState) (line : GoString) :
    scanLine ps st line
      = ((ps.filter (fun p => MatchString p line)).map (fun p => FindString p line)).foldl record st := by
  unfold scanLine
  induction ps generalizing st with
  | nil => rfl
  | cons p ps ih =>
    rw [List.foldl_cons, ih, scanPattern_eq]
    by_cases h : MatchString p line = true
    · simp [List.filter_cons, h]
    · simp [List.filter_cons, h]

theorem scanLines_eq (ps : List Regex) (st : ScanState) (lines : List GoString) :
    lines.foldl (scanLine ps) st = (matchedTexts ps lines).foldl record st := by
  induction lines generalizing st with
  | nil => rfl
  | cons l ls ih =>
    rw [List.foldl_cons, ih, scanLine_eq]
    simp [matchedTexts, List.foldl_append]

theorem filter_ne_filter_of_false {α : Type} [DecidableEq α] (q : α → Bool) (m : α)
    (fs : List α) (h : q m = false) :
    (fs.filter (fun y => decide (y ≠ m))).filter q = fs.filter q := by
  rw [List.filter_filter]
  apply List.filter_congr
  intro x _
  by_cases hx : q x = true
  · have : x ≠ m := fun e => by rw [e, h] at hx; exact Bool.false_ne_true hx
    simp [hx, this]
  · simp [hx]

theorem filter_eq_filter_ne_filter {α : Type} [DecidableEq α] (q q' : α → Bool) (m : α)
    (fs : List α) (h : ∀ x, q' x = (q x && decide (x ≠ m))) :
    fs.filter q' = (fs.filter (fun y => decide (y ≠ m))).filter q := by
  rw [List.filter_filter]
  apply List.filter_congr
  intro x _
  exact h x

theorem record_foldl (ms : List GoString) (st : ScanState) :
    (ms.foldl record st).result =
      { Path := st.result.Path, TotalCommits := st.result.TotalCommits,
        SuspiciousCommits := st.result.SuspiciousCommits + ms.length,
        SuspiciousAuthors := st.result.SuspiciousAuthors ++
          ((firstSeen (ms.filter (fun m => decide (m ≠ [])))).filter
            (fun m => decide (m ∉ st.authorMap))).map TrimSpace } := by
  induction ms generalizing st with
  | nil => simp [firstSeen]
  | cons m ms ih =>
    rw [List.foldl_cons, ih]
    by_cases h1 : m = []
    · have hr : record st m
          = { st with result := { st.result with
                SuspiciousCommits := st.result.SuspiciousCommits + 1 } } := by
        simp [record, h1]
      rw [hr, RepositoryResult.mk.injEq]
      refine ⟨rfl, rfl, ?_, ?_⟩
      · simp only [List.length_cons]; push_cast; omega
      · simp [h1]
    · by_cases h2 : m ∈ st.authorMap
      · have hr : record st m
            = { st with result := { st.result with
                  SuspiciousCommits := st.result.SuspiciousCommits + 1 } } := by
          simp [record, h2]
        rw [hr, RepositoryResult.mk.injEq]
        refine ⟨rfl, rfl, ?_, ?_⟩
        · simp only [List.length_cons]; push_cast; omega
        · have hf : List.filter (fun m => decide (m ≠ [])) (m :: ms)
              = m :: List.filter (fun m => decide (m ≠ [])) ms := by
            simp [List.filter_cons, h1]
          rw [hf]
          simp only [firstSeen]
          rw [List.filter_cons]
          simp only [h2, not_true_eq_false, decide_False, Bool.false_eq_true, if_false]
          exact congrArg _ (congrArg _ (filter_ne_filter_of_false _ _ _ (by simp [h2])).symm)
      · have hr : record st m
            = { result := { st.result with
                  SuspiciousCommits := st.result.SuspiciousCommits + 1,
                  SuspiciousAuthors := st.result.SuspiciousAuthors ++ [TrimSpace m] },
                authorMap := m :: st.authorMap } := by
          simp [record, h1, h2]
        rw [hr, RepositoryResult.mk.injEq]
        refine ⟨rfl, rfl, ?_, ?_⟩
        · simp only [List.length_cons]; push_cast; omega
        · have hf : List.filter (fun m => decide (m ≠ [])) (m :: ms)
              = m :: List.filter (fun m => decide (m ≠ [])) ms := by
            simp [List.filter_cons, h1]
          rw [hf]
          simp only [firstSeen]
          rw [List.filter_cons]
          simp only [h2, not_false_eq_true, decide_True, if_true, List.map_cons]
          rw [List.append_assoc, List.singleton_append]
          exact congrArg _ (congrArg _ (congrArg _ (filter_eq_filter_ne_filter _ _ _ _
            (by intro x; simp [not_or, Bool.and_comm]))))

/-! ## Shape of a match -/

theorem starRun_append (p : Char → Bool) (s m rest : GoString)
    (h : (m, rest) ∈ starRun p s) : s = m ++ rest := by
  induction s generalizing m with
  | nil => simp [starRun] at h; simp [h]
  | cons a t ih =>
    unfold starRun at h
    split_ifs at h
    · rcases List.mem_append.1 h with h | h
      · obtain ⟨mr, hmr, e⟩ := List.mem_map.1 h
        cases e
        simp [ih _ hmr]
      · simp at h; simp [h]
    · simp at h; simp [h]

theorem run_append (r : Regex) (s m rest : GoString) (h : (m, rest) ∈ r.run s) :
    s = m ++ rest := by
  induction r generalizing s m rest with
  | eps => simp [Regex.run] at h; simp [h]
  | chr c =>
    cases s with
    | nil => simp [Regex.run] at h
    | cons a t =>
      simp only [Regex.run] at h
      split_ifs at h
      · simp at h; simp [h]
      · simp at h
  | cls neg items =>
    cases s with
    | nil => simp [Regex.run] at h
    | cons a t =>
      simp only [Regex.run] at h
      split_ifs at h
      · simp at h; simp [h]
      · simp at h
  | star neg items => exact starRun_append _ _ _ _ h
  | seq a b iha ihb =>
    simp only [Regex.run, List.mem_flatMap, List.mem_map] at h
    obtain ⟨m1, h1, m2, h2, e⟩ := h
    cases e
    have e1 := iha s m1.1 m1.2 h1
    have e2 := ihb m1.2 m2.1 m2.2 h2
    rw [e1, List.append_assoc, ← e2]
  | alt a b iha ihb =>
    simp only [Regex.run, List.mem_append] at h
    rcases h with h | h
    · exact iha _ _ _ h
    · exact ihb _ _ _ h

theorem foldEq_nonspace (c a : Char)
    (hc : (!isSpace c && (simpleFoldOrbit c.toNat).all (fun n => !isSpaceNat n)) = true)
    (h : foldEq c a = true) : isSpace a = false := by
  simp only [Bool.and_eq_true, Bool.not_eq_true', List.all_eq_true] at hc
  simp only [foldEq, Bool.or_eq_true, decide_eq_true_eq, List.contains_iff_exists_mem_beq] at h
  rcases h with h | ⟨n, hn, e⟩
  · unfold isSpace at hc ⊢
    rw [h]; exact hc.1
  · have := hc.2 n hn
    simp only [beq_iff_eq] at e
    unfold isSpace
    rw [e]; simpa using this

theorem classMatch_nonspace (items : List Char) (a : Char)
    (hc : items.all (fun c => !isSpace c &&
      (simpleFoldOrbit c.toNat).all (fun n => !isSpaceNat n)) = true)
    (h : classMatch false items a = true) : isSpace a = false := by
  simp only [classMatch, Bool.false_xor, List.any_eq_true] at h
  obtain ⟨c, hc1, hc2⟩ := h
  exact foldEq_nonspace c a (List.all_eq_true.1 hc c hc1) hc2

theorem run_headOk (r : Regex) (s m rest : GoString) (hr : headOk r = true)
    (h : (m, rest) ∈ r.run s) : ∃ c m', m = c :: m' ∧ isSpace c = false := by
  induction r generalizing s m rest with
  | eps => simp [headOk] at hr
  | chr c =>
    cases s with
    | nil => simp [Regex.run] at h
    | cons a t =>
      simp only [Regex.run] at h
      split_ifs at h with hf
      · simp at h
        exact ⟨a, [], by simp [h], foldEq_nonspace c a hr hf⟩
      · simp at h
  | cls neg items =>
    cases s with
    | nil => simp [Regex.run] at h
    | cons a t =>
      simp only [Regex.run] at h
      simp only [headOk, Bool.and_eq_true, Bool.not_eq_true'] at hr
      split_ifs at h with hf
      · simp at h
        rw [hr.1] at hf
        exact ⟨a, [], by simp [h], classMatch_nonspace items a hr.2 hf⟩
      · simp at h
  | star neg items => simp [headOk] at hr
  | seq a b iha _ =>
    simp only [Regex.run, List.mem_flatMap, List.mem_map] at h
    obtain ⟨m1, h1, m2, _, e⟩ := h
    cases e
    obtain ⟨c, m', e1, hc⟩ := iha s m1.1 m1.2 hr h1
    exact ⟨c, m' ++ m2.1, by simp [e1], hc⟩
  | alt a b iha ihb =>
    simp only [headOk, Bool.and_eq_true] at hr
    simp only [Regex.run, List.mem_append] at h
    rcases h with h | h
    · exact iha _ _ _ hr.1 h
    · exact ihb _ _ _ hr.2 h

theorem run_lastOk (r : Regex) (s m rest : GoString) (hr : lastOk r = true)
    (h : (m, rest) ∈ r.run s) : ∃ m' c, m = m' ++ [c] ∧ isSpace c = false := by
  induction r generalizing s m rest with
  | eps => simp [lastOk] at hr
  | chr c =>
    cases s with
    | nil => simp [Regex.run] at h
    | cons a t =>
      simp only [Regex.run] at h
      split_ifs at h with hf
      · simp at h
        exact ⟨[], a, by simp [h], foldEq_nonspace c a hr hf⟩
      · simp at h
  | cls neg items =>
    cases s with
    | nil => simp [Regex.run] at h
    | cons a t =>
      simp only [Regex.run] at h
      simp only [lastOk, Bool.and_eq_true, Bool.not_eq_true'] at hr
      split_ifs at h with hf
      · simp at h
        rw [hr.1] at hf
        exact ⟨[], a, by simp [h], classMatch_nonspace items a hr.2 hf⟩
      · simp at h
  | star neg items => simp [lastOk] at hr
  | seq a b _ ihb =>
    simp only [Regex.run, List.mem_flatMap, List.mem_map] at h
    obtain ⟨m1, _, m2, h2, e⟩ := h
    cases e
    obtain ⟨m', c, e1, hc⟩ := ihb m1.2 m2.1 m2.2 hr h2
    exact ⟨m1.1 ++ m', c, by simp [e1], hc⟩
  | alt a b iha ihb =>
    simp only [lastOk, Bool.and_eq_true] at hr
    simp only [Regex.run, List.mem_append] at h
    rcases h with h | h
    · exact iha _ _ _ hr.1 h
    · exact ihb _ _ _ hr.2 h

theorem find_some (r : Regex) (s m : GoString) (h : r.find s = some m) :
    ∃ pre rest, s = pre ++ (m ++ rest) ∧ (m, rest) ∈ r.run (m ++ rest) := by
  induction s with
  | nil =>
    simp only [Regex.find] at h
    cases hrun : r.run [] with
    | nil => simp [hrun] at h
    | cons x xs =>
      simp [hrun] at h
      have hx : (x.1, x.2) ∈ r.run [] := by rw [hrun]; simp
      have e := run_append r [] x.1 x.2 hx
      refine ⟨[], x.2, ?_, ?_⟩
      · rw [← h]; simpa using e
      · rw [← h, ← e]; exact hx
  | cons a t ih =>
    simp only [Regex.find] at h
    cases hrun : r.run (a :: t) with
    | nil =>
      rw [hrun] at h
      obtain ⟨pre, rest, e, hm⟩ := ih h
      exact ⟨a :: pre, rest, by simp [e], hm⟩
    | cons x xs =>
      rw [hrun] at h
      simp at h
      have hx : (x.1, x.2) ∈ r.run (a :: t) := by rw [hrun]; simp
      have e := run_append r (a :: t) x.1 x.2 hx
      refine ⟨[], x.2, ?_, ?_⟩
      · rw [← h]; simpa using e
      · rw [← h, ← e]; exact hx

theorem TrimSpace_eq_self (c d : Char) (s : GoString)
    (h1 : ∃ m', s = c :: m') (h2 : ∃ m', s = m' ++ [d])
    (hc : isSpace c = false) (hd : isSpace d = false) : TrimSpace s = s := by
  obtain ⟨m1, e1⟩ := h1
  obtain ⟨m2, e2⟩ := h2
  unfold TrimSpace
  have : s.dropWhile isSpace = s := by rw [e1]; simp [List.dropWhile, hc]
  rw [this]
  have : s.reverse = d :: m2.reverse := by rw [e2]; simp
  rw [this]
  simp [List.dropWhile, hd, e2]

theorem patterns_headOk_lastOk :
    ∀ p ∈ suspiciousPatterns, headOk p = true ∧ lastOk p = true := by
  decide

theorem find_facts (p : Regex) (hp : p ∈ suspiciousPatterns) (l m : GoString)
    (h : p.find l = some m) : m ≠ [] ∧ TrimSpace m = m ∧ m <:+: l := by
  obtain ⟨pre, rest, e, hm⟩ := find_some p l m h
  obtain ⟨hh, hl⟩ := patterns_headOk_lastOk p hp
  obtain ⟨c, m1, e1, hc⟩ := run_headOk p _ _ _ hh hm
  obtain ⟨m2, d, e2, hd⟩ := run_lastOk p _ _ _ hl hm
  refine ⟨by rw [e1]; simp, TrimSpace_eq_self c d m ⟨m1, e1⟩ ⟨m2, e2⟩ hc hd, ?_⟩
  exact ⟨pre, rest, by rw [e]; simp⟩

theorem mem_matchedTexts (ps : List Regex) (lines : List GoString) (m : GoString)
    (h : m ∈ matchedTexts ps lines) :
    ∃ l ∈ lines, ∃ p ∈ ps, MatchString p l = true ∧ m = FindString p l
      ∧ p.find l = some m := by
  simp only [matchedTexts, List.mem_flatMap, List.mem_map, List.mem_filter] at h
  obtain ⟨l, hl, p, ⟨hp, hm⟩, e⟩ := h
  refine ⟨l, hl, p, hp, hm, e.symm, ?_⟩
  unfold MatchString at hm
  unfold FindString at e
  cases hf : p.find l with
  | none => simp [hf] at hm
  | some x => simp [hf] at e; simp [e]

theorem mem_firstSeen {α : Type} [DecidableEq α] (l : List α) (x : α) :
    x ∈ firstSeen l ↔ x ∈ l := by
  induction l with
  | nil => simp [firstSeen]
  | cons a t ih =>
    simp only [firstSeen, List.mem_cons, List.mem_filter, ih, decide_eq_true_eq]
    constructor
    · rintro (h | h)
      · exact Or.inl h
      · exact Or.inr h.1
    · rintro (h | h)
      · exact Or.inl h
      · by_cases e : x = a
        · exact Or.inl e
        · exact Or.inr ⟨h, e⟩

theorem nodup_firstSeen {α : Type} [DecidableEq α] (l : List α) : (firstSeen l).Nodup := by
  induction l with
  | nil => simp [firstSeen]
  | cons a t ih =>
    simp only [firstSeen, List.nodup_cons, List.mem_filter, decide_eq_true_eq]
    exact ⟨fun h => h.2 rfl, ih.filter _⟩

theorem scanLog_eq (result : RepositoryResult) (log : GoString) :
    scanLog suspiciousPatterns result log =
      { Path := result.Path, TotalCommits := result.TotalCommits,
        SuspiciousCommits := result.SuspiciousCommits
          + (matchedTexts suspiciousPatterns (splitLines log)).length,
        SuspiciousAuthors := result.SuspiciousAuthors
          ++ firstSeen (matchedTexts suspiciousPatterns (splitLines log)) } := by
  unfold scanLog
  rw [scanLines_eq, record_foldl]
  simp only [RepositoryResult.mk.injEq, true_and, List.append_cancel_left_eq]
  have hne : (matchedTexts suspiciousPatterns (splitLines log)).filter (fun m => decide (m ≠ []))
      = matchedTexts suspiciousPatterns (splitLines log) := by
    apply List.filter_eq_self.2
    intro m hm
    obtain ⟨l, _, p, hp, _, _, hf⟩ := mem_matchedTexts _ _ _ hm
    simpa using (find_facts p hp l m hf).1
  rw [hne]
  have hnil : ∀ (xs : List GoString), xs.filter (fun m => decide (m ∉ ([] : List GoString))) = xs := by
    intro xs; simp
  rw [hnil]
  conv_rhs => rw [← List.map_id (firstSeen (matchedTexts suspiciousPatterns (splitLines log)))]
  apply List.map_congr_left
  intro m hm
  rw [mem_firstSeen] at hm
  obtain ⟨l, _, p, hp, _, _, hf⟩ := mem_matchedTexts _ _ _ hm
  simpa using (find_facts p hp l m hf).2.1

theorem analyzeRepository_scanned (git : Git) (repoPath log : GoString)
    (h0 : (analyzeRepository git repoPath).1.TotalCommits ≠ 0)
    (hlog : commitLogOutput git repoPath = some log) :
    ∃ n : Int, n ≠ 0 ∧ analyzeRepository git repoPath =
      (scanLog suspiciousPatterns
        { Path := repoPath, TotalCommits := n, SuspiciousCommits := 0, SuspiciousAuthors := [] }
        log, none) := by
  unfold analyzeRepository at h0 ⊢
  cases hc : git.revListCount repoPath with
  | none => simp [hc] at h0
  | some out =>
    simp only [hc] at h0 ⊢
    by_cases hz : Sscanf_d (TrimSpace out) 0 = 0
    · simp [hz] at h0
    · exact ⟨Sscanf_d (TrimSpace out) 0, hz, by simp [hz, hlog]⟩

/-! ## Claims about the scan -/

/-- C1 (as amended): with count output "5" and the log of the two trailers, the
analysis does not fail and returns totalCommits 5 and suspiciousCommits 3: the
Claude line is matched by two patterns of the table (the Claude pattern and the
vendor-domain pattern) and the Copilot line by one. Nothing is stated about
suspiciousAuthors. -/
theorem analyzeRepository_two_trailers (git : Git) (repoPath : GoString)
    (hcount : git.revListCount repoPath = some "5".toList)
    (hlog : commitLogOutput git repoPath = some twoTrailers) :
    (analyzeRepository git repoPath).2 = none
    ∧ (analyzeRepository git repoPath).1.TotalCommits = 5
    ∧ (analyzeRepository git repoPath).1.SuspiciousCommits = 3
    ∧ (splitLines twoTrailers).map
        (fun l => suspiciousPatterns.countP (fun p => MatchString p l)) = [2, 1] := by
  have h5 : Sscanf_d (TrimSpace "5".toList) 0 = 5 := by decide
  have hm : (matchedTexts suspiciousPatterns (splitLines twoTrailers)).length = 3 := by decide
  have hres : analyzeRepository git repoPath
      = (scanLog suspiciousPatterns
          { Path := repoPath, TotalCommits := 5, SuspiciousCommits := 0, SuspiciousAuthors := [] }
          twoTrailers, none) := by
    unfold analyzeRepository
    simp only [hcount, h5, hlog]
    rw [if_neg (by decide)]
  rw [hres, scanLog_eq, hm]
  exact ⟨rfl, rfl, rfl, by decide⟩

/-- Witness for C1: a git whose count output is "5" and whose log of all refs
is the two trailers. -/
theorem analyzeRepository_two_trailers_witness :
    (constGit "5".toList twoTrailers).revListCount "/repo".toList = some "5".toList
    ∧ commitLogOutput (constGit "5".toList twoTrailers) "/repo".toList = some twoTrailers
    ∧ (analyzeRepository (constGit "5".toList twoTrailers) "/repo".toList).2 = none
    ∧ (analyzeRepository (constGit "5".toList twoTrailers) "/repo".toList).1.TotalCommits = 5
    ∧ (analyzeRepository (constGit "5".toList twoTrailers) "/repo".toList).1.SuspiciousCommits = 3
    ∧ (splitLines twoTrailers).map
        (fun l => suspiciousPatterns.countP (fun p => MatchString p l)) = [2, 1] :=
  ⟨rfl, rfl,
    analyzeRepository_two_trailers (constGit "5".toList twoTrailers) "/repo".toList rfl rfl⟩

/-- Counterexample to C1 as stated: for count output "5" and the two-trailer
log the result has suspiciousCommits 3, so it does not have suspiciousCommits 2. -/
theorem two_trailers_count_is_not_two :
    (analyzeRepository (constGit "5".toList twoTrailers) "/repo".toList).1.SuspiciousCommits = 3
    ∧ (analyzeRepository (constGit "5".toList twoTrailers) "/repo".toList).1.SuspiciousCommits
      ≠ 2 := by
  decide

theorem length_filter_product (ps : List Regex) (lines : List GoString) :
    (matchedTexts ps lines).length
      = ((lines.product ps).filter (fun lp => MatchString lp.2 lp.1)).length := by
  induction lines with
  | nil => simp [matchedTexts, List.product]
  | cons l ls ih =>
    have e : matchedTexts ps (l :: ls)
        = (ps.filter (fun p => MatchString p l)).map (fun p => FindString p l)
          ++ matchedTexts ps ls := by
      simp [matchedTexts]
    rw [e, List.length_append, ih, List.length_map]
    simp only [List.product, List.flatMap_cons, List.filter_append, List.length_append,
      List.filter_map, List.length_map]
    rfl

theorem length_matchedTexts_sum (ps : List Regex) (lines : List GoString) :
    (matchedTexts ps lines).length
      = (lines.map (fun l => ps.countP (fun p => MatchString p l))).sum := by
  induction lines with
  | nil => simp [matchedTexts]
  | cons l ls ih =>
    have e : matchedTexts ps (l :: ls)
        = (ps.filter (fun p => MatchString p l)).map (fun p => FindString p l)
          ++ matchedTexts ps ls := by
      simp [matchedTexts]
    rw [e, List.length_append, ih, List.length_map, List.map_cons, List.sum_cons,
      List.countP_eq_length_filter]

/-- C2: for a repository with a non-zero commit count whose log text is
retrieved, suspiciousCommits is the number of pairs (line, pattern), line a
newline-separated line of the log and pattern a member of suspiciousPatterns
matching it; equivalently the sum over the lines of the number of patterns
that match the line, so a line matched by k patterns contributes k. -/
theorem suspiciousCommits_counts_pairs (git : Git) (repoPath log : GoString)
    (h0 : (analyzeRepository git repoPath).1.TotalCommits ≠ 0)
    (hlog : commitLogOutput git repoPath = some log) :
    (analyzeRepository git repoPath).1.SuspiciousCommits
        = ((((splitLines log).product suspiciousPatterns).filter
            (fun lp => MatchString lp.2 lp.1)).length : Int)
    ∧ (analyzeRepository git repoPath).1.SuspiciousCommits
        = ((((splitLines log).map
            (fun l => suspiciousPatterns.countP (fun p => MatchString p l))).sum : Nat) : Int) := by
  obtain ⟨n, _, e⟩ := analyzeRepository_scanned git repoPath log h0 hlog
  rw [e, scanLog_eq]
  simp only [zero_add]
  exact ⟨by rw [length_filter_product], by rw [length_matchedTexts_sum]⟩

/-- Witness for C2: the two-trailer log of a repository with count output "5";
its first line is matched by two patterns and its second by one. -/
theorem suspiciousCommits_counts_pairs_witness :
    (analyzeRepository (constGit "5".toList twoTrailers) "/repo".toList).1.TotalCommits ≠ 0
    ∧ commitLogOutput (constGit "5".toList twoTrailers) "/repo".toList = some twoTrailers
    ∧ (analyzeRepository (constGit "5".toList twoTrailers) "/repo".toList).1.SuspiciousCommits
        = ((((splitLines twoTrailers).product suspiciousPatterns).filter
            (fun lp => MatchString lp.2 lp.1)).length : Int)
    ∧ (analyzeRepository (constGit "5".toList twoTrailers) "/repo".toList).1.SuspiciousCommits
        = ((((splitLines twoTrailers).map
            (fun l => suspiciousPatterns.countP (fun p => MatchString p l))).sum : Nat) : Int) :=
  ⟨by decide, rfl,
    suspiciousCommits_counts_pairs (constGit "5".toList twoTrailers) "/repo".toList twoTrailers
      (by decide) rfl⟩

/-- C3: for every count output and every log text, the suspiciousAuthors list
returned by analyzeRepository has no duplicate entries (every matched text
starts and ends with a rune that is not white space, so trimming changes
nothing and the untrimmed key decides). -/
theorem suspiciousAuthors_nodup (git : Git) (repoPath : GoString) :
    (analyzeRepository git repoPath).1.SuspiciousAuthors.Nodup := by
  unfold analyzeRepository
  cases git.revListCount repoPath with
  | none => simp
  | some out =>
    simp only
    split_ifs
    · simp
    · cases commitLogOutput git repoPath with
      | none => simp
      | some log =>
        simp only [scanLog_eq, List.nil_append]
        exact nodup_firstSeen _

/-- C10: when the log text of a repository with a non-zero commit count is
scanned, suspiciousAuthors is the sequence of matched substrings (leftmost
match of each matching pattern, line by line and pattern by pattern) with
every repeat after the first removed; each entry is the leftmost match of a
pattern in a log line, and so a substring of that line. -/
theorem suspiciousAuthors_firstSeen (git : Git) (repoPath log : GoString)
    (h0 : (analyzeRepository git repoPath).1.TotalCommits ≠ 0)
    (hlog : commitLogOutput git repoPath = some log) :
    (analyzeRepository git repoPath).1.SuspiciousAuthors
        = firstSeen (matchedTexts suspiciousPatterns (splitLines log))
    ∧ ∀ a ∈ (analyzeRepository git repoPath).1.SuspiciousAuthors,
        ∃ l ∈ splitLines log, ∃ p ∈ suspiciousPatterns,
          MatchString p l = true ∧ a = FindString p l ∧ a <:+: l := by
  obtain ⟨n, _, e⟩ := analyzeRepository_scanned git repoPath log h0 hlog
  rw [e, scanLog_eq]
  refine ⟨by simp, ?_⟩
  intro a ha
  simp only [List.nil_append] at ha
  rw [mem_firstSeen] at ha
  obtain ⟨l, hl, p, hp, hm, ea, hf⟩ := mem_matchedTexts _ _ _ ha
  exact ⟨l, hl, p, hp, hm, ea, (find_facts p hp l a hf).2.2⟩

/-- Witness for C10: the two-trailer log of a repository with count output "5". -/
theorem suspiciousAuthors_firstSeen_witness :
    (analyzeRepository (constGit "5".toList twoTrailers) "/repo".toList).1.TotalCommits ≠ 0
    ∧ commitLogOutput (constGit "5".toList twoTrailers) "/repo".toList = some twoTrailers
    ∧ (analyzeRepository (constGit "5".toList twoTrailers) "/repo".toList).1.SuspiciousAuthors
        = firstSeen (matchedTexts suspiciousPatterns (splitLines twoTrailers))
    ∧ ∀ a ∈ (analyzeRepository (constGit "5".toList twoTrailers) "/repo".toList).1.SuspiciousAuthors,
        ∃ l ∈ splitLines twoTrailers, ∃ p ∈ suspiciousPatterns,
          MatchString p l = true ∧ a = FindString p l ∧ a <:+: l :=
  ⟨by decide, rfl,
    suspiciousAuthors_firstSeen (constGit "5".toList twoTrailers) "/repo".toList twoTrailers
      (by decide) rfl⟩

/-! ## Case folding -/

theorem foldEq_caseVariant (c a b : Char) (h : CaseVariant a b) : foldEq c a = foldEq c b := by
  rcases h with h | ⟨ha, hb, hl⟩
  · rw [h]
  · have key : ∀ x : Char, isAsciiLetter x = true →
        (foldEq c x = true ↔ lowerNat x.toNat = lowerNat c.toNat ∧ isAsciiLetter c = true) := by
      intro x hx
      simp only [isAsciiLetter, isUpperNat, isLowerNat, Bool.or_eq_true, Bool.and_eq_true,
        decide_eq_true_eq] at hx
      simp only [foldEq, simpleFoldOrbit, lowerNat, isAsciiLetter, isUpperNat, isLowerNat,
        Bool.or_eq_true, Bool.and_eq_true, decide_eq_true_eq, List.contains_iff_exists_mem_beq,
        beq_iff_eq]
      split_ifs <;> simp <;> omega
    rw [Bool.eq_iff_iff, key a ha, key b hb, hl]

theorem classMatch_caseVariant (neg : Bool) (items : List Char) (a b : Char)
    (h : CaseVariant a b) : classMatch neg items a = classMatch neg items b := by
  unfold classMatch
  congr 1
  induction items with
  | nil => rfl
  | cons c cs ih => simp only [List.any_cons, ih, foldEq_caseVariant c a b h]

theorem starRun_caseVariant (p : Char → Bool) (hp : ∀ a b, CaseVariant a b → p a = p b)
    (s s' : GoString) (h : CaseVariantLine s s') :
    List.Forall₂ CaseVariantRun (starRun p s) (starRun p s') := by
  unfold CaseVariantLine at h
  induction h with
  | nil => exact List.Forall₂.cons ⟨List.Forall₂.nil, List.Forall₂.nil⟩ List.Forall₂.nil
  | @cons a b t t' hab ht ih =>
    have hlast : List.Forall₂ CaseVariantRun [([], a :: t)] [([], b :: t')] :=
      List.Forall₂.cons ⟨List.Forall₂.nil, List.Forall₂.cons hab ht⟩ List.Forall₂.nil
    unfold starRun
    rw [hp a b hab]
    split_ifs
    · refine List.rel_append (List.rel_map ?_ ih) hlast
      intro x y hxy
      exact ⟨List.Forall₂.cons hab hxy.1, hxy.2⟩
    · exact hlast

theorem run_caseVariant (r : Regex) (s s' : GoString) (h : CaseVariantLine s s') :
    List.Forall₂ CaseVariantRun (r.run s) (r.run s') := by
  induction r generalizing s s' with
  | eps => exact List.Forall₂.cons ⟨List.Forall₂.nil, h⟩ List.Forall₂.nil
  | chr c =>
    cases h with
    | nil => simp [Regex.run]
    | @cons a b t t' hab ht =>
      simp only [Regex.run, foldEq_caseVariant c a b hab]
      split_ifs
      · exact List.Forall₂.cons ⟨List.Forall₂.cons hab List.Forall₂.nil, ht⟩ List.Forall₂.nil
      · exact List.Forall₂.nil
  | cls neg items =>
    cases h with
    | nil => simp [Regex.run]
    | @cons a b t t' hab ht =>
      simp only [Regex.run, classMatch_caseVariant neg items a b hab]
      split_ifs
      · exact List.Forall₂.cons ⟨List.Forall₂.cons hab List.Forall₂.nil, ht⟩ List.Forall₂.nil
      · exact List.Forall₂.nil
  | star neg items =>
    exact starRun_caseVariant _ (classMatch_caseVariant neg items) s s' h
  | seq a b iha ihb =>
    simp only [Regex.run]
    refine List.rel_flatMap (iha s s' h) ?_
    intro x y hxy
    refine List.rel_map ?_ (ihb x.2 y.2 hxy.2)
    intro u v huv
    exact ⟨List.rel_append hxy.1 huv.1, huv.2⟩
  | alt a b iha ihb =>
    simp only [Regex.run]
    exact List.rel_append (iha s s' h) (ihb s s' h)

theorem find_caseVariant (r : Regex) (s s' : GoString) (h : CaseVariantLine s s') :
    (r.find s).isSome = (r.find s').isSome := by
  have h' := h
  unfold CaseVariantLine at h
  induction h with
  | nil => rfl
  | @cons a b t t' hab ht ih =>
    have hr := run_caseVariant r (a :: t) (b :: t') h'
    simp only [Regex.find]
    generalize r.run (a :: t) = x at hr
    generalize r.run (b :: t') = y at hr
    cases hr with
    | nil => exact ih ht
    | cons _ _ => rfl

/-- C4: every pattern of suspiciousPatterns matches a line if and only if it
matches a line obtained from it by changing the case of any of its ASCII
letters; the upper-case and the lower-case Qwen trailers are both matched by
the first pattern. -/
theorem patterns_case_insensitive :
    (∀ p ∈ suspiciousPatterns, ∀ l l' : GoString, CaseVariantLine l l' →
      (MatchString p l = true ↔ MatchString p l' = true))
    ∧ MatchString (suspiciousPatterns.headD .eps) qwenUpper = true
    ∧ MatchString (suspiciousPatterns.headD .eps) qwenLower = true := by
  refine ⟨?_, by decide, by decide⟩
  intro p _ l l' h
  unfold MatchString
  rw [find_caseVariant p l l' h]

/-- Witness for C4: the first pattern on the upper-case and the lower-case
Qwen trailers, which differ only in the case of ASCII letters. -/
theorem patterns_case_insensitive_witness :
    suspiciousPatterns.headD .eps ∈ suspiciousPatterns ∧ CaseVariantLine qwenUpper qwenLower
    ∧ (MatchString (suspiciousPatterns.headD .eps) qwenUpper = true
        ↔ MatchString (suspiciousPatterns.headD .eps) qwenLower = true) := by
  have hp : suspiciousPatterns.headD .eps ∈ suspiciousPatterns := by
    simp [suspiciousPatterns]
  have hl : CaseVariantLine qwenUpper qwenLower := by
    unfold CaseVariantLine qwenUpper qwenLower
    repeat (first | exact List.Forall₂.nil | apply List.Forall₂.cons (by decide))
  exact ⟨hp, hl, patterns_case_insensitive.1 _ hp _ _ hl⟩

/-! ## The commit count -/

theorem TrimSpace_head (s : GoString) :
    TrimSpace s = [] ∨ ∃ c t, TrimSpace s = c :: t ∧ isSpace c = false := by
  have hu : s.dropWhile isSpace = [] ∨ ∃ c t, s.dropWhile isSpace = c :: t ∧ isSpace c = false := by
    induction s with
    | nil => exact Or.inl rfl
    | cons a t ih =>
      by_cases ha : isSpace a = true
      · simpa [List.dropWhile, ha] using ih
      · exact Or.inr ⟨a, t, by simp [List.dropWhile, ha], by simpa using ha⟩
  have hp : TrimSpace s <+: s.dropWhile isSpace := by
    unfold TrimSpace
    exact List.rdropWhile_prefix _ _
  rcases hu with hu | ⟨c, t, e, hc⟩
  · rw [hu] at hp
    exact Or.inl (List.prefix_nil.1 hp)
  · cases ht : TrimSpace s with
    | nil => exact Or.inl rfl
    | cons d r =>
      right
      rw [ht, e] at hp
      obtain ⟨x, hx⟩ := hp
      simp only [List.cons_append, List.cons.injEq] at hx
      exact ⟨d, r, rfl, by rw [hx.1]; exact hc⟩

theorem SkipSpace_nonspace (c : Char) (t : GoString) (hc : isSpace c = false) :
    SkipSpace (c :: t) = some (c :: t) := by
  have hn : c ≠ '\n' := by
    intro e; rw [e] at hc; exact absurd hc (by decide)
  simp [SkipSpace, hn, hc]

theorem hugeWid_succ : hugeWid = (2 ^ 30 - 2) + 1 + 1 := by decide

theorem scanInt_none (s : GoString) (h0 : s = [] ∨ ∃ c t, s = c :: t ∧ isSpace c = false)
    (h : startsWithNumber s = false) : scanInt s = none := by
  rcases h0 with h0 | ⟨c, t, e, hc⟩
  · subst h0; rfl
  · subst e
    unfold scanInt
    rw [SkipSpace_nonspace c _ hc]
    simp only
    cases t with
    | nil =>
      simp only [startsWithNumber] at h
      by_cases hs : c = '+' ∨ c = '-'
      · simp [hs]
      · simp [hs, List.takeWhile, h]
    | cons d r =>
      simp only [startsWithNumber, Bool.or_eq_false_iff, Bool.and_eq_false_iff] at h
      by_cases hs : c = '+' ∨ c = '-'
      · have hd : isDigit d = false := by
          rcases h.2 with h2 | h2
          · rcases hs with hs | hs <;> simp [hs] at h2
          · exact h2
        simp [hs, List.takeWhile, hd]
      · simp [hs, List.takeWhile, h.1]

theorem startsWithNumber_take (s : GoString) :
    startsWithNumber (s.take hugeWid) = startsWithNumber s := by
  rw [hugeWid_succ]
  cases s with
  | nil => rfl
  | cons c t =>
    cases t with
    | nil => rfl
    | cons d r => simp [List.take_succ_cons, startsWithNumber]

theorem Sscanf_d_zero (out : GoString) (h : startsWithNumber (TrimSpace out) = false) :
    Sscanf_d (TrimSpace out) 0 = 0 := by
  unfold Sscanf_d
  rw [← startsWithNumber_take] at h
  rcases TrimSpace_head out with h0 | ⟨c, t, e, hc⟩
  · rw [h0]; rfl
  · rw [e] at h ⊢
    have ht : List.take hugeWid (c :: t) = c :: List.take (2 ^ 30 - 2 + 1) t := by
      rw [hugeWid_succ, List.take_succ_cons]
    rw [ht] at h ⊢
    rw [SkipSpace_nonspace c _ hc]
    simp only [scanInt_none _ (Or.inr ⟨c, _, rfl, hc⟩) h]

/-- C7 (as amended): when the count query succeeds and its output, trimmed of
surrounding white space, does not begin with a decimal digit optionally
preceded by one sign, analyzeRepository does not fail and returns
totalCommits = 0 (with no suspicious findings). -/
theorem totalCommits_zero_of_no_number (git : Git) (repoPath out : GoString)
    (hcount : git.revListCount repoPath = some out)
    (h : startsWithNumber (TrimSpace out) = false) :
    analyzeRepository git repoPath =
      ({ Path := repoPath, TotalCommits := 0, SuspiciousCommits := 0, SuspiciousAuthors := [] },
        none) := by
  unfold analyzeRepository
  simp [hcount, Sscanf_d_zero out h]

/-- Witness for C7: the count output "abc", with a log that holds trailers. -/
theorem totalCommits_zero_of_no_number_witness :
    (constGit "abc\n".toList twoTrailers).revListCount "/repo".toList = some "abc\n".toList
    ∧ startsWithNumber (TrimSpace "abc\n".toList) = false
    ∧ analyzeRepository (constGit "abc\n".toList twoTrailers) "/repo".toList =
      ({ Path := "/repo".toList, TotalCommits := 0, SuspiciousCommits := 0,
         SuspiciousAuthors := [] }, none) :=
  ⟨rfl, by decide,
    totalCommits_zero_of_no_number (constGit "abc\n".toList twoTrailers) "/repo".toList
      "abc\n".toList rfl (by decide)⟩

/-- Counterexample to C7 as stated: the count outputs "12abc" and "-5" are
not strings of decimal digits, yet they give totalCommits 12 and -5 (a
negative count), and with "-5" and both log commands failing the analysis
fails. -/
theorem totalCommits_malformed_not_zero :
    isDecimalString (TrimSpace "12abc\n".toList) = false
    ∧ (analyzeRepository (constGit "12abc\n".toList []) "/repo".toList).1.TotalCommits = 12
    ∧ isDecimalString (TrimSpace "-5\n".toList) = false
    ∧ (analyzeRepository (constGit "-5\n".toList []) "/repo".toList).1.TotalCommits = -5
    ∧ (analyzeRepository (noLogGit "-5\n".toList) "/repo".toList).2
        = some AnalysisError.gettingCommitLogs := by
  decide

/-- C8: a result with totalCommits = 0 has suspiciousCommits = 0 and no
suspiciousAuthors, and it does not depend on the log commands: every git with
the same count output for the path gives the same result. -/
theorem zero_commits_no_findings (git : Git) (repoPath : GoString)
    (h0 : (analyzeRepository git repoPath).1.TotalCommits = 0) :
    (analyzeRepository git repoPath).1.SuspiciousCommits = 0
    ∧ (analyzeRepository git repoPath).1.SuspiciousAuthors = []
    ∧ ∀ git' : Git, git'.revListCount repoPath = git.revListCount repoPath →
        analyzeRepository git' repoPath = analyzeRepository git repoPath := by
  unfold analyzeRepository at h0 ⊢
  cases hc : git.revListCount repoPath with
  | none =>
    refine ⟨rfl, rfl, ?_⟩
    intro git' hg
    simp [hg, hc]
  | some out =>
    simp only [hc] at h0
    by_cases hz : Sscanf_d (TrimSpace out) 0 = 0
    · simp only [hz, if_true, true_and]
      intro git' hg
      simp [hg, hc, hz]
    · exfalso
      simp only [hz, if_false] at h0
      cases hl : commitLogOutput git repoPath with
      | none => simp [hl] at h0; exact hz h0
      | some log =>
        simp only [hl, scanLog_eq] at h0
        exact hz h0

/-- Witness for C8: count output "0" with a log that holds the two trailers. -/
theorem zero_commits_no_findings_witness :
    (analyzeRepository (constGit "0\n".toList twoTrailers) "/repo".toList).1.TotalCommits = 0
    ∧ (analyzeRepository (constGit "0\n".toList twoTrailers) "/repo".toList).1.SuspiciousCommits = 0
    ∧ (analyzeRepository (constGit "0\n".toList twoTrailers) "/repo".toList).1.SuspiciousAuthors = []
    ∧ ∀ git' : Git, git'.revListCount "/repo".toList
          = (constGit "0\n".toList twoTrailers).revListCount "/repo".toList →
        analyzeRepository git' "/repo".toList
          = analyzeRepository (constGit "0\n".toList twoTrailers) "/repo".toList :=
  ⟨by decide,
    zero_commits_no_findings (constGit "0\n".toList twoTrailers) "/repo".toList (by decide)⟩

/-! ## The coordinator -/

theorem foldl_appendResult (git : Git) (completion : List GoString)
    (acc : List RepositoryResult) :
    completion.foldl (appendResult git) acc
      = acc ++ completion.filterMap (successfulResult git) := by
  induction completion generalizing acc with
  | nil => simp
  | cons p ps ih =>
    rw [List.foldl_cons, ih]
    unfold appendResult successfulResult
    rcases h : analyzeRepository git p with ⟨r, _ | e⟩
    · simp [List.filterMap_cons, h]
    · simp [List.filterMap_cons, h]

theorem length_filterMap_successfulResult (git : Git) (repos : List GoString) :
    (repos.filterMap (successfulResult git)).length
      = repos.length - repos.countP (fun p => (analyzeRepository git p).2.isSome) := by
  induction repos with
  | nil => rfl
  | cons p ps ih =>
    have hle := List.countP_le_length (fun p => (analyzeRepository git p).2.isSome) (l := ps)
    unfold successfulResult at ih ⊢
    rcases h : analyzeRepository git p with ⟨r, _ | e⟩
    · simp only [List.filterMap_cons, h, List.length_cons, List.countP_cons, ih]
      simp; omega
    · simp only [List.filterMap_cons, h, List.length_cons, List.countP_cons, ih]
      simp

theorem filterMap_range_getElem? {α : Type} (l : List α) :
    (List.range l.length).filterMap (fun i => l[i]?) = l := by
  induction l using List.reverseRecOn with
  | nil => rfl
  | append_singleton xs a ih =>
    rw [List.length_append, List.length_singleton, List.range_succ, List.filterMap_append]
    have h1 : (List.range xs.length).filterMap (fun i => (xs ++ [a])[i]?)
        = (List.range xs.length).filterMap (fun i => xs[i]?) := by
      apply List.filterMap_congr
      intro i hi
      rw [List.mem_range] at hi
      exact List.getElem?_append_left hi
    rw [h1, ih]
    simp

/-- C6: whatever the order in which the goroutines finish, analyzeRepositories
returns, up to order, exactly the results of the listed paths whose analysis
succeeds; its length is the number of listed paths minus the number of failed
analyses, so 50 paths with 3 failures give 47 results. -/
theorem analyzeRepositories_collects_successes (git : Git) (repos : List GoString)
    (completion : List Nat) (hsched : completion.Perm (List.range repos.length)) :
    (analyzeRepositories git repos completion).Perm (repos.filterMap (successfulResult git))
    ∧ (analyzeRepositories git repos completion).length
        = repos.length - repos.countP (fun p => (analyzeRepository git p).2.isSome)
    ∧ (repos.length = 50 → repos.countP (fun p => (analyzeRepository git p).2.isSome) = 3 →
        (analyzeRepositories git repos completion).length = 47) := by
  have e : analyzeRepositories git repos completion
      = (completion.filterMap (fun i => repos[i]?)).filterMap (successfulResult git) := by
    unfold analyzeRepositories
    rw [foldl_appendResult, List.nil_append]
  have hperm : ((completion.filterMap (fun i => repos[i]?)).filterMap (successfulResult git)).Perm
      (repos.filterMap (successfulResult git)) := by
    have h1 := hsched.filterMap (fun i => repos[i]?)
    rw [filterMap_range_getElem?] at h1
    exact h1.filterMap (successfulResult git)
  have hlen : (analyzeRepositories git repos completion).length
      = repos.length - repos.countP (fun p => (analyzeRepository git p).2.isSome) := by
    rw [e, hperm.length_eq, length_filterMap_successfulResult]
  refine ⟨e ▸ hperm, hlen, ?_⟩
  intro h50 h3
  rw [hlen, h50, h3]

/-- Witness for C6: three paths, the second of which fails, with the
goroutines finishing in the order third, first, second. -/
theorem analyzeRepositories_collects_successes_witness :
    [2, 0, 1].Perm (List.range ["/a".toList, "/b".toList, "/c".toList].length)
    ∧ (analyzeRepositories oneFailingGit ["/a".toList, "/b".toList, "/c".toList] [2, 0, 1]).Perm
        (["/a".toList, "/b".toList, "/c".toList].filterMap (successfulResult oneFailingGit))
    ∧ (analyzeRepositories oneFailingGit ["/a".toList, "/b".toList, "/c".toList] [2, 0, 1]).length
        = 2 := by
  have hp : [2, 0, 1].Perm (List.range ["/a".toList, "/b".toList, "/c".toList].length) := by
    decide
  have h := analyzeRepositories_collects_successes oneFailingGit
    ["/a".toList, "/b".toList, "/c".toList] [2, 0, 1] hp
  exact ⟨hp, h.1, by decide⟩

/-! ## Repository discovery -/

theorem walkFn_err (v : GoPath → Bool) (path : GoPath) (info : Option FileInfo) (err : Bool) :
    (walkFn v path info err).2 = none ∨
      ((walkFn v path info err).2 = some WalkErr.SkipDir ∧ err = false ∧
        ∃ i, info = some i ∧ i.IsDir = true ∧ i.Name = dotGit) := by
  unfold walkFn
  cases err with
  | true => simp
  | false =>
    cases info with
    | none => simp
    | some i =>
      by_cases h : (i.IsDir && i.Name == dotGit) = true
      · right
        simp only [h, if_true, Bool.false_eq_true, if_false, true_and]
        simp only [Bool.and_eq_true, beq_iff_eq] at h
        exact ⟨i, rfl, h.1, h.2⟩
      · simp [h]

mutual
theorem walk_err (v : GoPath → Bool) :
    ∀ (node : Node) (path : GoPath) (name : GoString),
      (walk v path name node).err = none ∨
        ((walk v path name node).err = some WalkErr.SkipDir ∧ node.isDir = true ∧ name = dotGit)
  | .missing, path, name => by
    left
    simp [walk, walkFn]
  | .file, path, name => by
    left
    simp [walk, walkFn]
  | .dir readable entries, path, name => by
    rw [walk]
    simp only
    split_ifs with h
    · rcases walkFn_err v path (some ⟨name, true⟩) (!readable) with h1 | ⟨h1, _, i, hi, _, hn⟩
      · exact Or.inl h1
      · right
        simp only [Option.some.injEq] at hi
        subst hi
        exact ⟨h1, rfl, hn⟩
    · exact Or.inl (walkEntries_err v entries path)
theorem walkEntries_err (v : GoPath → Bool) :
    ∀ (entries : List (GoString × Node)) (path : GoPath),
      (walk.walkEntries v path entries).err = none
  | [], path => by simp [walk.walkEntries]
  | (name, node) :: rest, path => by
    have h := walk_err v node (Join path name) name
    have ih := walkEntries_err v rest path
    cases node with
    | missing =>
      rcases h with h | ⟨_, hd, _⟩
      · simp [walk.walkEntries, h, ih]
      · simp [Node.isDir] at hd
    | file =>
      rcases h with h | ⟨_, hd, _⟩
      · simp [walk.walkEntries, h, ih]
      · simp [Node.isDir] at hd
    | dir readable entries =>
      rcases h with h | ⟨h, _, _⟩
      · simp [walk.walkEntries, h, ih]
      · simp [walk.walkEntries, h, ih, Node.isDir]
end

theorem walkEntries_cons (v : GoPath → Bool) (path : GoPath) (name : GoString) (node : Node)
    (rest : List (GoString × Node)) :
    walk.walkEntries v path ((name, node) :: rest) =
      ⟨(walk v (Join path name) name node).visited ++ (walk.walkEntries v path rest).visited,
       (walk v (Join path name) name node).repos ++ (walk.walkEntries v path rest).repos,
       (walk.walkEntries v path rest).err⟩ := by
  have h := walk_err v node (Join path name) name
  cases node with
  | missing =>
    rcases h with h | ⟨_, hd, _⟩
    · simp [walk.walkEntries, h]
    · simp [Node.isDir] at hd
  | file =>
    rcases h with h | ⟨_, hd, _⟩
    · simp [walk.walkEntries, h]
    · simp [Node.isDir] at hd
  | dir readable entries =>
    rcases h with h | ⟨h, _, _⟩
    · simp [walk.walkEntries, h]
    · simp [walk.walkEntries, h, Node.isDir]

theorem walk_dir_eq (v : GoPath → Bool) (path : GoPath) (name : GoString) (readable : Bool)
    (entries : List (GoString × Node)) :
    walk v path name (.dir readable entries) =
      if readable = false then ⟨[path], [], none⟩
      else if name = dotGit then
        ⟨[path], if v (Dir path) = true then [Dir path] else [], some WalkErr.SkipDir⟩
      else ⟨path :: (walk.walkEntries v path entries).visited,
            (walk.walkEntries v path entries).repos, (walk.walkEntries v path entries).err⟩ := by
  rw [walk]
  cases readable with
  | false => simp [walkFn]
  | true =>
    by_cases hn : name = dotGit
    · simp [walkFn, hn]
    · simp [walkFn, hn]

theorem walk_leaf_eq (v : GoPath → Bool) (path : GoPath) (name : GoString) (node : Node)
    (h : node.isDir = false) : walk v path name node = ⟨[path], [], none⟩ := by
  cases node with
  | missing => simp [walk, walkFn]
  | file => simp [walk, walkFn]
  | dir _ _ => simp [Node.isDir] at h

mutual
theorem walk_visited (v : GoPath → Bool) :
    ∀ (node : Node) (path : GoPath) (name : GoString),
      ∀ p ∈ (walk v path name node).visited,
        ∃ rel, p = path ++ rel ∧ dotGit ∉ (name :: rel).dropLast
  | .missing, path, name => by
    intro p hp
    rw [walk_leaf_eq v path name .missing rfl] at hp
    simp only [List.mem_singleton] at hp
    exact ⟨[], by simp [hp], by simp⟩
  | .file, path, name => by
    intro p hp
    rw [walk_leaf_eq v path name .file rfl] at hp
    simp only [List.mem_singleton] at hp
    exact ⟨[], by simp [hp], by simp⟩
  | .dir readable entries, path, name => by
    intro p hp
    rw [walk_dir_eq] at hp
    by_cases h1 : readable = false
    · rw [if_pos h1] at hp
      simp only [List.mem_singleton] at hp
      exact ⟨[], by simp [hp], by simp⟩
    · rw [if_neg h1] at hp
      by_cases h2 : name = dotGit
      · rw [if_pos h2] at hp
        simp only [List.mem_singleton] at hp
        exact ⟨[], by simp [hp], by simp⟩
      · rw [if_neg h2] at hp
        simp only [List.mem_cons] at hp
        rcases hp with hp | hp
        · exact ⟨[], by simp [hp], by simp⟩
        · obtain ⟨n, rel, e, hrel⟩ := walkEntries_visited v entries path p hp
          refine ⟨n :: rel, e, ?_⟩
          rw [List.dropLast_cons₂]
          simp only [List.mem_cons, not_or]
          exact ⟨fun e => h2 e.symm, hrel⟩
theorem walkEntries_visited (v : GoPath → Bool) :
    ∀ (entries : List (GoString × Node)) (path : GoPath),
      ∀ p ∈ (walk.walkEntries v path entries).visited,
        ∃ n rel, p = path ++ n :: rel ∧ dotGit ∉ (n :: rel).dropLast
  | [], path => by simp [walk.walkEntries]
  | (name, node) :: rest, path => by
    intro p hp
    rw [walkEntries_cons] at hp
    simp only [List.mem_append] at hp
    rcases hp with hp | hp
    · obtain ⟨rel, e, hrel⟩ := walk_visited v node (Join path name) name p hp
      exact ⟨name, rel, by simp [e, Join], hrel⟩
    · exact walkEntries_visited v rest path p hp
end

theorem lookup_dir_cons_ne (ro ro' : Bool) (name k : GoString) (node : Node)
    (rest : List (GoString × Node)) (tail : List GoString) (h : k ≠ name) :
    (Node.dir ro ((name, node) :: rest)).lookup (k :: tail)
      = (Node.dir ro' rest).lookup (k :: tail) := by
  have hk : (k == name) = false := by simpa using h
  simp [Node.lookup, List.lookup, hk]

theorem lookup_dir_cons_eq (ro : Bool) (name : GoString) (node : Node)
    (rest : List (GoString × Node)) (tail : List GoString) :
    (Node.dir ro ((name, node) :: rest)).lookup (name :: tail) = node.lookup tail := by
  simp [Node.lookup, List.lookup]

mutual
theorem walk_repos (v : GoPath → Bool) :
    ∀ (node : Node) (path : GoPath) (name : GoString), node.distinctNames = true →
      (name = dotGit → (walk v path name node).repos = [] ∨
        ((walk v path name node).repos = [Dir path] ∧ v (Dir path) = true ∧ node.isDir = true))
      ∧ (name ≠ dotGit → ∃ R : List (List GoString),
          (walk v path name node).repos = R.map (fun rel => path ++ rel) ∧ R.Nodup ∧
          ∀ rel ∈ R, v (path ++ rel) = true ∧
            ∃ ro es, node.lookup (rel ++ [dotGit]) = some (.dir ro es))
  | .missing, path, name => by
    intro _
    rw [walk_leaf_eq v path name .missing rfl]
    exact ⟨fun _ => Or.inl rfl, fun _ => ⟨[], rfl, List.nodup_nil, by simp⟩⟩
  | .file, path, name => by
    intro _
    rw [walk_leaf_eq v path name .file rfl]
    exact ⟨fun _ => Or.inl rfl, fun _ => ⟨[], rfl, List.nodup_nil, by simp⟩⟩
  | .dir readable entries, path, name => by
    intro hd
    rw [walk_dir_eq]
    by_cases h1 : readable = false
    · rw [if_pos h1]
      exact ⟨fun _ => Or.inl rfl, fun _ => ⟨[], rfl, List.nodup_nil, by simp⟩⟩
    · rw [if_neg h1]
      by_cases h2 : name = dotGit
      · rw [if_pos h2]
        refine ⟨fun _ => ?_, fun h => absurd h2 h⟩
        by_cases hv : v (Dir path) = true
        · exact Or.inr ⟨by simp [hv], hv, rfl⟩
        · exact Or.inl (by simp [hv])
      · rw [if_neg h2]
        refine ⟨fun h => absurd h h2, fun _ => ?_⟩
        simp only [Node.distinctNames, Bool.and_eq_true, decide_eq_true_eq] at hd
        obtain ⟨R, hR, hnd, hprop⟩ := walkEntries_repos v entries path hd.1 hd.2
        refine ⟨R, hR, hnd, ?_⟩
        intro rel hrel
        obtain ⟨hv, ⟨ro, es, hl⟩, k, _, hk⟩ := hprop rel hrel
        refine ⟨hv, ro, es, ?_⟩
        cases hrd : rel ++ [dotGit] with
        | nil => simp at hrd
        | cons a t =>
          rw [hrd] at hl
          simpa [Node.lookup] using hl
theorem walkEntries_repos (v : GoPath → Bool) :
    ∀ (entries : List (GoString × Node)) (path : GoPath), (entries.map Prod.fst).Nodup →
      Node.distinctNames.distinctEntries entries = true →
      ∃ R : List (List GoString),
        (walk.walkEntries v path entries).repos = R.map (fun rel => path ++ rel) ∧ R.Nodup ∧
        ∀ rel ∈ R, v (path ++ rel) = true ∧
          (∃ ro es, (Node.dir true entries).lookup (rel ++ [dotGit]) = some (.dir ro es)) ∧
          ∃ k ∈ entries.map Prod.fst, (rel ++ [dotGit]).head? = some k
  | [], path => by
    intro _ _
    exact ⟨[], by simp [walk.walkEntries], List.nodup_nil, by simp⟩
  | (name, node) :: rest, path => by
    intro hnd hd
    simp only [List.map_cons, List.nodup_cons] at hnd
    simp only [Node.distinctNames.distinctEntries, Bool.and_eq_true] at hd
    obtain ⟨R2, hR2, hnd2, hprop2⟩ := walkEntries_repos v rest path hnd.2 hd.2
    have hchild := walk_repos v node (Join path name) name hd.1
    -- the part found under the first entry
    have hfirst : ∃ R1 : List (List GoString),
        (walk v (Join path name) name node).repos = R1.map (fun rel => path ++ rel) ∧ R1.Nodup ∧
        ∀ rel ∈ R1, v (path ++ rel) = true ∧
          (∃ ro es, (Node.dir true ((name, node) :: rest)).lookup (rel ++ [dotGit])
            = some (.dir ro es)) ∧ (rel ++ [dotGit]).head? = some name := by
      by_cases hn : name = dotGit
      · rcases hchild.1 hn with h | ⟨h, hv, hdir⟩
        · exact ⟨[], by simp [h], List.nodup_nil, by simp⟩
        · refine ⟨[[]], by rw [h]; simp [Dir, Join], by simp, ?_⟩
          intro rel hrel
          simp only [List.mem_singleton] at hrel
          subst hrel
          have hv' : v path = true := by simpa [Dir, Join] using hv
          refine ⟨by simpa using hv', ?_, by simp [hn]⟩
          cases node with
          | dir ro es =>
            refine ⟨ro, es, ?_⟩
            rw [List.nil_append, ← hn, lookup_dir_cons_eq]
            rfl
          | file => simp [Node.isDir] at hdir
          | missing => simp [Node.isDir] at hdir
      · obtain ⟨R, hR, hndR, hprop⟩ := hchild.2 hn
        refine ⟨R.map (fun rel => name :: rel), ?_, ?_, ?_⟩
        · rw [hR, List.map_map]
          apply List.map_congr_left
          intro rel _
          simp [Join]
        · exact hndR.map (fun a b h => by simpa using h)
        · intro rel hrel
          simp only [List.mem_map] at hrel
          obtain ⟨rel', hrel', e⟩ := hrel
          subst e
          obtain ⟨hv, ro, es, hl⟩ := hprop rel' hrel'
          refine ⟨by simpa [Join] using hv, ⟨ro, es, ?_⟩, by simp⟩
          rw [List.cons_append, lookup_dir_cons_eq]
          exact hl
    obtain ⟨R1, hR1, hnd1, hprop1⟩ := hfirst
    refine ⟨R1 ++ R2, ?_, ?_, ?_⟩
    · rw [walkEntries_cons]
      simp [hR1, hR2]
    · rw [List.nodup_append]
      refine ⟨hnd1, hnd2, ?_⟩
      intro x hx1 hx2
      obtain ⟨_, _, h1⟩ := hprop1 x hx1
      obtain ⟨_, _, k, hk, h2⟩ := hprop2 x hx2
      rw [h1] at h2
      simp only [Option.some.injEq] at h2
      exact hnd.1 (h2 ▸ hk)
    · intro rel hrel
      rcases List.mem_append.1 hrel with hrel | hrel
      · obtain ⟨hv, hl, hh⟩ := hprop1 rel hrel
        exact ⟨hv, hl, name, by simp, hh⟩
      · obtain ⟨hv, ⟨ro, es, hl⟩, k, hk, hh⟩ := hprop2 rel hrel
        refine ⟨hv, ⟨ro, es, ?_⟩, k, by simp [List.mem_map] at hk ⊢; exact Or.inr hk, hh⟩
        cases hrd : rel ++ [dotGit] with
        | nil => simp at hrd
        | cons a t =>
          rw [hrd] at hl hh
          simp only [List.head?_cons, Option.some.injEq] at hh
          subst hh
          rw [lookup_dir_cons_ne true true name a node rest t (fun e => hnd.1 (e ▸ hk))]
          exact hl
end

theorem Walk_eq (v : GoPath → Bool) (root : GoPath) (node : Node) :
    Walk v root node =
      ⟨(walk v root (Base root) node).visited, (walk v root (Base root) node).repos, none⟩ := by
  unfold Walk
  rcases walk_err v node root (Base root) with h | ⟨h, _, _⟩
  · simp only [h]
    simp only [reduceCtorEq, or_self, if_false]
    rw [← h]
  · simp [h]

theorem findGitRepositories_eq (v : GoPath → Bool) (root : GoPath) (node : Node) :
    findGitRepositories v root node = .ok (Walk v root node).repos := by
  unfold findGitRepositories
  simp [Walk_eq]

/-- C9: on a directory tree with distinct sibling names and for every validity
check, findGitRepositories succeeds with the repositories appended during the
walk; the list has no duplicates; each listed path is accepted by the check
and is the parent of a directory of the tree named `.git`; and no path the
callback is called with lies inside a directory named `.git` (no component
from the root's name down to its parent is `.git`). -/
theorem findGitRepositories_discovery (v : GoPath → Bool) (root : GoPath) (node : Node)
    (hd : node.distinctNames = true) :
    findGitRepositories v root node = .ok (Walk v root node).repos
    ∧ (Walk v root node).repos.Nodup
    ∧ (∀ r ∈ (Walk v root node).repos, v r = true ∧
        ∃ rel ro es, node.lookup rel = some (.dir ro es) ∧ Base (root ++ rel) = dotGit
          ∧ r = Dir (root ++ rel))
    ∧ (∀ p ∈ (Walk v root node).visited,
        ∃ rel, p = root ++ rel ∧ dotGit ∉ (Base root :: rel).dropLast) := by
  refine ⟨findGitRepositories_eq v root node, ?_, ?_, ?_⟩
  · rw [Walk_eq]
    simp only
    by_cases hn : Base root = dotGit
    · rcases (walk_repos v node root (Base root) hd).1 hn with h | ⟨h, _, _⟩
      · rw [h]; exact List.nodup_nil
      · rw [h]; exact List.nodup_singleton _
    · obtain ⟨R, hR, hnd, _⟩ := (walk_repos v node root (Base root) hd).2 hn
      rw [hR]
      exact hnd.map (List.append_right_injective root)
  · rw [Walk_eq]
    simp only
    intro r hr
    by_cases hn : Base root = dotGit
    · rcases (walk_repos v node root (Base root) hd).1 hn with h | ⟨h, hv, hdir⟩
      · rw [h] at hr; simp at hr
      · rw [h] at hr
        simp only [List.mem_singleton] at hr
        subst hr
        cases node with
        | dir ro es => exact ⟨hv, [], ro, es, rfl, by simpa using hn, by simp⟩
        | file => simp [Node.isDir] at hdir
        | missing => simp [Node.isDir] at hdir
    · obtain ⟨R, hR, _, hprop⟩ := (walk_repos v node root (Base root) hd).2 hn
      rw [hR] at hr
      simp only [List.mem_map] at hr
      obtain ⟨rel, hrel, e⟩ := hr
      subst e
      obtain ⟨hv, ro, es, hl⟩ := hprop rel hrel
      refine ⟨hv, rel ++ [dotGit], ro, es, hl, ?_, ?_⟩
      · simp [Base, ← List.append_assoc]
      · simp [Dir, ← List.append_assoc]
  · rw [Walk_eq]
    exact walk_visited v node root (Base root)

/-- Witness for C9: the sample tree below "home/dev" with a check that accepts
every path. -/
theorem findGitRepositories_discovery_witness :
    sampleTree.distinctNames = true
    ∧ findGitRepositories (fun _ => true) ["home".toList, "dev".toList] sampleTree
        = .ok [["home".toList, "dev".toList], ["home".toList, "dev".toList, "sub".toList,
            "lib".toList]]
    ∧ (Walk (fun _ => true) ["home".toList, "dev".toList] sampleTree).repos.Nodup := by
  have h := findGitRepositories_discovery (fun _ => true) ["home".toList, "dev".toList]
    sampleTree (by decide)
  exact ⟨by decide, rfl, h.2.1⟩

/-- C5 (as amended): when the root is not a directory, findGitRepositories
returns no error: the root is passed to the callback as a single entry and
the result is the empty list. -/
theorem findGitRepositories_file_root (v : GoPath → Bool) (root : GoPath) :
    findGitRepositories v root Node.file = .ok [] := by
  rw [findGitRepositories_eq, Walk_eq, walk_leaf_eq v root (Base root) .file rfl]

/-- Counterexample to C5 as stated: a root that is a regular file cannot be
walked as a directory, and findGitRepositories returns the empty list, not an
error. -/
theorem file_root_is_not_an_error :
    Node.file.isDir = false
    ∧ findGitRepositories (fun _ => true) ["home".toList, "notes.txt".toList] Node.file
        = .ok [] :=
  ⟨rfl, rfl⟩

end SecureGit
